import Mathlib

/-!
# Verification of `src/parser/Tree.cpp` (taskwarrior parse tree)

Shallow embedding of the mutable, ordered N-ary tree node type `Tree`
from `src/parser/Tree.cpp`, together with proofs about its operations.

Two complementary models are used, both translated from the same source:

* a pure inductive `Tree` value capturing the ownership structure
  (`_name`, `_attributes`, `_tags`, `_branches`), used for the read-only
  traversal/query methods `enumerate`, `count` and `find`.  Since C++
  nodes are distinguished by their address, each `Tree` value also
  carries an `id : Nat` modelling the node's address; theorems that
  depend on pointer identity assume all ids in the tree are distinct
  (`NodupIds`), which holds for any genuinely tree-shaped C++ heap.

* a heap model (`Store := Nat → TNode`, addresses are `Nat`) in which a
  node's `_branches` is a list of child addresses and `_trunk` is an
  optional parent address, used for the mutating methods `addBranch`,
  `removeBranch` and `replaceBranch`, whose contracts are about pointer
  identity and in-place update.

Per-node state (`_attributes`, `_tags`) and the methods that touch only
it (`attribute`, `hasTag`, `tag`) are modelled on the node record.
-/

namespace Taskwarrior

/-- A tree node, as in `Tree.cpp`: a name fixed at construction, string
attributes unique by name, a list of tags, and an ordered list of owned
branches.  `id` models the C++ node address (pointer identity). -/
inductive Tree : Type where
  | node (id : Nat) (name : String) (attributes : List (String × String))
      (tags : List String) (branches : List Tree) : Tree

/-- The node's address (pointer identity). -/
def Tree.id : Tree → Nat
  | .node i _ _ _ _ => i

/-- The `_name` member. -/
def Tree.name : Tree → String
  | .node _ n _ _ _ => n

/-- The `_attributes` member (`std::map <std::string, std::string>`),
modelled as an association list unique by key. -/
def Tree.attributes : Tree → List (String × String)
  | .node _ _ a _ _ => a

/-- The `_tags` member (`std::vector <std::string>`). -/
def Tree.tags : Tree → List String
  | .node _ _ _ g _ => g

/-- The `_branches` member (`std::vector <Tree*>`): the ordered children. -/
def Tree.branches : Tree → List Tree
  | .node _ _ _ _ b => b

mutual

/-- Embedding of `Tree::enumerate (std::vector <Tree*>& all)`: for each branch in
order, recursively enumerate into `all`, then push the branch itself.
`all` is the accumulator vector passed by reference in the source. -/
def Tree.enumerateInto : Tree → List Tree → List Tree
  | .node _ _ _ _ bs, all => Tree.enumerateListInto bs all

/-- The `for` loop of `Tree::enumerate` over a branch vector. -/
def Tree.enumerateListInto : List Tree → List Tree → List Tree
  | [], all => all
  | b :: bs, all => Tree.enumerateListInto bs (Tree.enumerateInto b all ++ [b])

end

/-- Embedding of `Tree::enumerate` as called with a fresh (empty) vector. -/
def Tree.enumerate (t : Tree) : List Tree :=
  t.enumerateInto []

mutual

/-- Embedding of `Tree::count`: `total = 1` for this node, then `total += count ()`
of each branch. -/
def Tree.count : Tree → Nat
  | .node _ _ _ _ bs => Tree.countList bs 1

/-- The `for` loop of `Tree::count`, accumulating into `total`. -/
def Tree.countList : List Tree → Nat → Nat
  | [], total => total
  | b :: bs, total => Tree.countList bs (total + Tree.count b)

end

/-- The inner `for` loop of `Tree::find`: scan `cursor`'s branches in
order for the first branch named `seg` (`(*i)->_name == *it`). -/
def Tree.firstBranchNamed (t : Tree) (seg : String) : Option Tree :=
  t.branches.find? (fun b => b.name == seg)

/-- The outer `for` loop of `Tree::find`: resolve the remaining path
elements one by one, moving `cursor` to the first matching branch and
returning `NULL` (`none`) as soon as a segment has no match. -/
def Tree.findLoop : Tree → List String → Option Tree
  | cursor, [] => some cursor
  | cursor, seg :: rest =>
    match cursor.firstBranchNamed seg with
    | some next => Tree.findLoop next rest
    | none => none

/-- Character-by-character splitting loop: `acc` holds the (reversed)
characters of the segment being read. -/
def splitSegs : List Char → List Char → List String
  | [], acc => [String.mk acc.reverse]
  | c :: cs, acc =>
    if c = '/' then String.mk acc.reverse :: splitSegs cs []
    else splitSegs cs (c :: acc)

/-- Modelled from the spec: `split (elements, path, '/')` lives in
`text.cpp`, which is not part of this source tree.  The spec says the
path is split on the single-character separator `/` into named
segments. -/
def splitPath (path : String) : List String :=
  splitSegs path.toList []

/-- Embedding of `Tree::find (const std::string& path)`: split the path on `/`; the
first element must equal this node's own name or the lookup fails; a
single-element path returns this node; otherwise each further element
moves the cursor to the first branch with that name. -/
def Tree.find (t : Tree) (path : String) : Option Tree :=
  match splitPath path with
  | [] => none
  | first :: rest =>
    if t.name ≠ first then none
    else if rest = [] then some t
    else t.findLoop rest

/-! ## Spec-level definitions (written from the spec's words, to be
compared with the source translations above) -/

mutual

/-- Spec wording for `enumerate`: "for each child in order: recursively
enumerate that child's own descendants first, then append the child
itself", not including the node itself. -/
def postOrderSpec : Tree → List Tree
  | .node _ _ _ _ bs =>
    Tree.postOrderSpecList bs

/-- Post-order sequence of a forest, child by child. -/
def Tree.postOrderSpecList : List Tree → List Tree
  | [] => []
  | b :: bs => (postOrderSpec b ++ [b]) ++ Tree.postOrderSpecList bs

end

/-- Spec wording for `find`: the cursor descends from the anchor node,
each segment resolved to the first same-named child in sequence order. -/
def findSpec (t : Tree) (path : String) : Option Tree :=
  match splitPath path with
  | [] => none
  | first :: rest =>
    if first = t.name then Tree.findLoop t rest else none

/-! ## Descendants, ids and identity -/

mutual

/-- All proper descendants of a node (each branch together with that
branch's own descendants), used to state ancestor/descendant facts. -/
def Tree.descendants : Tree → List Tree
  | .node _ _ _ _ bs => Tree.descList bs

/-- Descendant closure of a forest: each root and its descendants. -/
def Tree.descList : List Tree → List Tree
  | [] => []
  | b :: bs => (b :: Tree.descendants b) ++ Tree.descList bs

end

mutual

/-- The addresses of a node and all of its descendants. -/
def Tree.idsOf : Tree → List Nat
  | .node i _ _ _ bs => i :: Tree.idsList bs

/-- The addresses occurring in a forest. -/
def Tree.idsList : List Tree → List Nat
  | [] => []
  | b :: bs => Tree.idsOf b ++ Tree.idsList bs

end

/-- A well-formed C++ tree: every node of the tree is a distinct heap
object, i.e. all addresses in the tree are pairwise distinct. -/
def Tree.NodupIds (t : Tree) : Prop :=
  t.idsOf.Nodup

instance (t : Tree) : Decidable t.NodupIds := by
  unfold Tree.NodupIds; infer_instance

/-- Relation: `a` is a proper ancestor of `n` (equivalently, `n` is a proper
descendant of `a`): `n` occurs strictly inside the subtree `a`. -/
def Tree.ProperDesc (n a : Tree) : Prop :=
  n ∈ a.descendants

/-! ## Heap model for the mutating methods

`addBranch`, `removeBranch` and `replaceBranch` speak about pointer
identity and in-place mutation, so they are modelled over an explicit
heap: addresses are `Nat`, a `TNode` is the member state of one C++
`Tree` object with `_trunk` and `_branches` as addresses, and a `Store`
maps every address to a node. -/

/-- The member state of one heap-allocated `Tree` object. -/
structure TNode : Type where
  trunk : Option Nat
  name : String
  branches : List Nat
  attributes : List (String × String)
  tags : List String
deriving DecidableEq

/-- The heap: every address holds a node (C++ code only ever
dereferences valid pointers). -/
def Store : Type := Nat → TNode

/-- Overwrite the node at one address. -/
def Store.write (s : Store) (a : Nat) (nd : TNode) : Store :=
  fun x => if x = a then nd else s x

/-- Embedding of `Tree::Tree (const std::string& name)`: a fresh node has a `NULL`
trunk, the given name, and no branches, attributes or tags. -/
def TNode.mkTree (name : String) : TNode :=
  { trunk := none, name := name, branches := [], attributes := [], tags := [] }

/-- Embedding of `Tree* Tree::addBranch (Tree* branch)` at address `self`.  A null
branch throws before any mutation (the pair's second component is the
`Except` outcome; the first is the heap after the call).  Otherwise
`branch->_trunk = this`, `_branches.push_back (branch)`, and `branch`
is returned. -/
def addBranch (s : Store) (self : Nat) (branch : Option Nat) :
    Store × Except String Nat :=
  match branch with
  | none => (s, .error "Failed to allocate memory for parse tree.")
  | some b =>
    let s1 := s.write b { s b with trunk := some self }
    let s2 := s1.write self { s1 self with branches := (s1 self).branches ++ [b] }
    (s2, .ok b)

/-- The erase performed by `Tree::removeBranch`'s loop: drop the first
element equal to `branch` (pointer comparison `*i == branch`); leave
the vector unchanged when no element matches. -/
def removeFirst : List Nat → Nat → List Nat
  | [], _ => []
  | x :: xs, b => if x = b then xs else x :: removeFirst xs b

/-- Embedding of `void Tree::removeBranch (Tree* branch)` at address `self`: scan
`_branches` for an address equal to `branch`, erase the first match,
silently do nothing when there is none.  The removed node itself is not
touched (not destroyed). -/
def removeBranch (s : Store) (self branch : Nat) : Store :=
  s.write self { s self with branches := removeFirst (s self).branches branch }

/-- Index of the first element equal to `from` in `_branches`, as
found by `replaceBranch`'s loop. -/
def firstIdx : List Nat → Nat → Option Nat
  | [], _ => none
  | x :: xs, b => if x = b then some 0 else (firstIdx xs b).map (· + 1)

/-- Embedding of `void Tree::replaceBranch (Tree* from, Tree* to)` at address
`self`: at the first index whose entry equals `from`, set
`to->_trunk = this` and overwrite the slot with `to`, then return;
silently do nothing when `from` is not found. -/
def replaceBranch (s : Store) (self frm toN : Nat) : Store :=
  match firstIdx (s self).branches frm with
  | some i =>
    let s1 := s.write toN { s toN with trunk := some self }
    s1.write self { s1 self with branches := (s1 self).branches.set i toN }
  | none => s

/-! ## Per-node methods: attributes and tags -/

/-- Embedding of `std::map::find` on the attribute map: the value stored under
`name`, if any. -/
def TNode.lookupAttr : List (String × String) → String → Option String
  | [], _ => none
  | (k, v) :: rest, name => if k = name then some v else TNode.lookupAttr rest name

/-- Embedding of `_attributes[name] = value` (insert-or-assign on a map unique by
key). -/
def TNode.setAttr : List (String × String) → String → String → List (String × String)
  | [], name, value => [(name, value)]
  | (k, v) :: rest, name, value =>
    if k = name then (k, value) :: rest else (k, v) :: TNode.setAttr rest name value

/-- Embedding of `void Tree::attribute (name, value)` (string overload). -/
def TNode.attributeSet (nd : TNode) (name value : String) : TNode :=
  { nd with attributes := TNode.setAttr nd.attributes name value }

/-- Embedding of `std::string Tree::attribute (const std::string& name)`: look the
name up with `std::map::find` — deliberately not `operator[]` — and
return the stored value, or `""` when absent.  The method runs on the
mutable object, so the model returns the object state after the call
next to the result string. -/
def TNode.attributeGet (nd : TNode) (name : String) : TNode × String :=
  match TNode.lookupAttr nd.attributes name with
  | some v => (nd, v)
  | none => (nd, "")

/-- Embedding of `bool Tree::hasTag (const std::string& tag) const`:
`std::find` over `_tags`. -/
def TNode.hasTag (nd : TNode) (t : String) : Bool :=
  nd.tags.contains t

/-- Embedding of `void Tree::tag (const std::string& tag)`: push the tag at the end
of `_tags` unless it is already present. -/
def TNode.addTag (nd : TNode) (t : String) : TNode :=
  if nd.hasTag t then nd else { nd with tags := nd.tags ++ [t] }

/-! ## Example trees from the spec -/

/-- The grandchild `A1` of the spec's enumeration example. -/
def exA1 : Tree := .node 3 "A1" [] [] []

/-- Child `A` (with one child `A1`) of the spec's enumeration example. -/
def exA : Tree := .node 1 "A" [] [] [exA1]

/-- Child `B` of the spec's enumeration example. -/
def exB : Tree := .node 2 "B" [] [] []

/-- The root of the spec's enumeration example, with children `[A, B]`. -/
def exRoot : Tree := .node 0 "root" [] [] [exA, exB]

/-! ## Lemmas about `enumerate` -/

/-- The accumulator form of the enumeration loop: enumerating a forest
into `all` appends the forest's post-order sequence to `all`. -/
theorem enumerateListInto_eq (bs : List Tree) :
    ∀ all, Tree.enumerateListInto bs all = all ++ Tree.postOrderSpecList bs := by
  match bs with
  | [] =>
    intro all
    simp [Tree.enumerateListInto, Tree.postOrderSpecList]
  | b :: rest =>
    intro all
    have hb : Tree.enumerateInto b all = all ++ postOrderSpec b := by
      match b with
      | .node i n a g cs =>
        rw [Tree.enumerateInto, postOrderSpec]
        exact enumerateListInto_eq cs all
    rw [Tree.enumerateListInto, Tree.postOrderSpecList, enumerateListInto_eq rest, hb]
    simp

/-- Enumerating a tree into `all` appends its post-order sequence. -/
theorem enumerateInto_eq (t : Tree) (all : List Tree) :
    t.enumerateInto all = all ++ postOrderSpec t := by
  match t with
  | .node i n a g bs =>
    rw [Tree.enumerateInto, postOrderSpec]
    exact enumerateListInto_eq bs all

/-- C1: `enumerate` returns exactly the depth-first post-order,
left-to-right sequence of the proper descendants of the node it is
called on (child subtrees enumerated before the child itself, the node
itself excluded); in particular on a root with children `[A, B]` where
`A` has one child `A1` it returns exactly `[A1, A, B]`. -/
theorem enumerate_is_postorder :
    (∀ t : Tree, t.enumerate = postOrderSpec t) ∧
      exRoot.enumerate = [exA1, exA, exB] := by
  constructor
  · intro t
    rw [Tree.enumerate, enumerateInto_eq]
    simp
  · rw [Tree.enumerate, enumerateInto_eq]
    simp [exRoot, exA, exA1, exB, postOrderSpec, Tree.postOrderSpecList]

/-! ## Lemmas about `count` -/

/-- The `count` loop adds the counts of the forest to the accumulator. -/
theorem countList_eq (bs : List Tree) :
    ∀ total, Tree.countList bs total = total + (bs.map Tree.count).sum := by
  induction bs with
  | nil =>
    intro total
    simp [Tree.countList]
  | cons b rest ih =>
    intro total
    rw [Tree.countList, ih]
    simp
    omega

/-- C4: `count` satisfies the structural recurrence: each node
counts itself plus the counts of its branches (so a childless root
yields 1, and a root with `k` childless children yields `k + 1`); in
the pure model `count` is a function of the tree value, so it mutates
nothing. -/
theorem count_recurrence (t : Tree) :
    t.count = 1 + (t.branches.map Tree.count).sum := by
  match t with
  | .node i n a g bs =>
    rw [Tree.count, Tree.branches]
    exact countList_eq bs 1

/-! ## Lemmas about `find` -/

/-- The grandchild of the spec's `find` example. -/
def exGrand : Tree := .node 12 "grandchild" [] [] []

/-- The middle node of the spec's `find` example. -/
def exChild : Tree := .node 11 "child" [] [] [exGrand]

/-- The root (named "root") of the spec's `find` example. -/
def exFindRoot : Tree := .node 10 "root" [] [] [exChild]

/-- C3: `find` is exactly rooted path lookup: it fails when the
first `/`-segment differs from the node's own name, returns the node
itself on the single-segment path equal to its name, and otherwise
resolves each further segment to the first same-named child in sequence
order, failing as soon as a segment has no match — equivalently, `find`
coincides with the spec-level `findSpec` on every tree and path; the
spec's three examples behave as stated. -/
theorem find_is_rooted_lookup :
    (∀ (t : Tree) (path : String), t.find path = findSpec t path) ∧
      exFindRoot.find "root/child/grandchild" = some exGrand ∧
      exFindRoot.find "root/missing" = none ∧
      exFindRoot.find "wrong-root/x" = none := by
  refine ⟨fun t path => ?_, rfl, rfl, rfl⟩
  rw [Tree.find, findSpec]
  cases splitPath path with
  | nil => rfl
  | cons first rest =>
    by_cases h : first = t.name
    · cases rest with
      | nil => simp [h, Tree.findLoop]
      | cons seg rest' => simp [h]
    · have h' : t.name ≠ first := fun hh => h hh.symm
      simp [h, h']

/-! ## Lemmas for the post-order safety property -/

/-- Helper: `enumerate` equals the post-order sequence. -/
theorem enumerate_eq_post (t : Tree) : t.enumerate = postOrderSpec t := by
  rw [Tree.enumerate, enumerateInto_eq]
  simp

/-- The post-order sequence of a forest is a permutation of its
descendant closure. -/
theorem postList_perm_descList (bs : List Tree) :
    List.Perm (Tree.postOrderSpecList bs) (Tree.descList bs) := by
  match bs with
  | [] =>
    rw [Tree.postOrderSpecList, Tree.descList]
  | b :: rest =>
    have hb : List.Perm (postOrderSpec b) (Tree.descendants b) := by
      match b with
      | .node i n a g cs =>
        rw [postOrderSpec, Tree.descendants]
        exact postList_perm_descList cs
    have hr := postList_perm_descList rest
    rw [Tree.postOrderSpecList, Tree.descList]
    refine List.Perm.append ?_ hr
    exact List.Perm.trans List.perm_append_comm (List.Perm.cons b hb)

/-- A tree's post-order sequence is a permutation of its descendants. -/
theorem post_perm_desc (t : Tree) : List.Perm (postOrderSpec t) t.descendants := by
  match t with
  | .node i n a g bs =>
    rw [postOrderSpec, Tree.descendants]
    exact postList_perm_descList bs

/-- The ids of a forest's descendant closure are exactly `idsList`. -/
theorem map_id_descList (bs : List Tree) :
    (Tree.descList bs).map Tree.id = Tree.idsList bs := by
  match bs with
  | [] => rfl
  | .node i n a g cs :: rest =>
    have hb := map_id_descList cs
    have hr := map_id_descList rest
    rw [Tree.descList, Tree.idsList]
    simp [Tree.idsOf, Tree.descendants, Tree.id, hb, hr]

/-- In a tree with distinct addresses, the enumeration visits
pairwise-distinct heap objects. -/
theorem nodup_enumerate_ids (t : Tree) (h : t.NodupIds) :
    (t.enumerate.map Tree.id).Nodup := by
  have hperm : List.Perm (t.enumerate.map Tree.id) (t.descendants.map Tree.id) :=
    (enumerate_eq_post t ▸ post_perm_desc t).map Tree.id
  refine (List.Perm.nodup_iff hperm).mpr ?_
  match t with
  | .node i n a g bs =>
    rw [Tree.descendants, map_id_descList]
    have : (Tree.idsOf (.node i n a g bs)).Nodup := h
    rw [Tree.idsOf] at this
    exact this.of_cons

/-- Key post-order invariant: whenever the post-order sequence of a
forest is split as `l₁ ++ a :: l₂`, every descendant of `a` is already
in the prefix `l₁`. -/
theorem postList_desc_before (bs : List Tree) :
    ∀ l₁ a l₂, Tree.postOrderSpecList bs = l₁ ++ a :: l₂ →
      ∀ s ∈ Tree.descendants a, s ∈ l₁ := by
  match bs with
  | [] =>
    intro l₁ a l₂ hsplit
    rw [Tree.postOrderSpecList] at hsplit
    exact absurd hsplit.symm (List.append_ne_nil_of_right_ne_nil l₁ (List.cons_ne_nil a l₂))
  | b :: rest =>
    intro l₁ a l₂ hsplit s hs
    rw [Tree.postOrderSpecList] at hsplit
    rcases List.append_eq_append_iff.mp hsplit with ⟨m, hm₁, hm₂⟩ | ⟨m, hm₁, hm₂⟩
    · -- `a` lies inside the post-order sequence of `rest`
      have := postList_desc_before rest m a l₂ hm₂ s hs
      rw [hm₁]
      exact List.mem_append_right _ this
    · -- `a` lies inside `postOrderSpec b ++ [b]`
      cases m with
      | nil =>
        -- `a` heads the post-order sequence of `rest`: no descendants precede it
        simp only [List.nil_append] at hm₂
        have : Tree.postOrderSpecList rest = [] ++ a :: l₂ := by
          rw [hm₂]; rfl
        exact absurd (postList_desc_before rest [] a l₂ this s hs)
          (List.not_mem_nil s)
      | cons x m' =>
        have hax : a = x := by
          injection hm₂ with h1 h2
        subst hax
        rcases List.append_eq_append_iff.mp hm₁ with ⟨k, hk₁, hk₂⟩ | ⟨k, hk₁, hk₂⟩
        · -- `[b] = k ++ a :: m'`: forces `k = []` and `a = b`
          cases k with
          | nil =>
            simp only [List.nil_append] at hk₂
            have hba : b = a := by
              injection hk₂ with h1 h2
            subst hba
            have hl₁ : l₁ = postOrderSpec b := by
              simpa using hk₁
            rw [hl₁]
            exact ((post_perm_desc b).symm.mem_iff).mp hs
          | cons y k' =>
            have hlen := congrArg List.length hk₂
            simp only [List.length_cons, List.length_append, List.length_nil] at hlen
            omega
        · cases k with
          | nil =>
            -- `a :: m' = [b]` again: `a = b` and `l₁ = postOrderSpec b`
            simp only [List.nil_append] at hk₂
            have hab : a = b := by
              injection hk₂ with h1 h2
            subst hab
            have hl₁ : l₁ = postOrderSpec a := by
              simpa using hk₁.symm
            rw [hl₁]
            exact ((post_perm_desc a).symm.mem_iff).mp hs
          | cons y k' =>
            -- `a` sits strictly inside `postOrderSpec b`
            have hay : a = y := by
              injection hk₂ with h1 h2
            subst hay
            match b, hk₁ with
            | .node i2 n2 a2 g2 cs, hk₁ =>
              have hpb : Tree.postOrderSpecList cs = l₁ ++ a :: k' := by
                rw [← postOrderSpec]
                exact hk₁
              exact postList_desc_before cs l₁ a k' hpb s hs

/-- C2: safe-teardown ordering: in a tree whose nodes are distinct
heap objects, no node in the `enumerate` sequence is preceded by any of
its proper ancestors — whenever `i < j`, the node at position `i` is
not a proper ancestor of the node at position `j`. -/
theorem enumerate_safe_teardown (t : Tree) (h : t.NodupIds)
    (i j : Nat) (hi : i < t.enumerate.length) (hj : j < t.enumerate.length)
    (hij : i < j) :
    ¬ Tree.ProperDesc (t.enumerate.get ⟨j, hj⟩) (t.enumerate.get ⟨i, hi⟩) := by
  intro hdesc
  have hids := nodup_enumerate_ids t h
  have hpost : t.enumerate = Tree.postOrderSpecList t.branches := by
    rw [enumerate_eq_post]
    match t with
    | .node i0 n0 a0 g0 bs => rw [postOrderSpec, Tree.branches]
  have hsplit : Tree.postOrderSpecList t.branches
      = t.enumerate.take i ++ t.enumerate.get ⟨i, hi⟩ :: t.enumerate.drop (i + 1) := by
    rw [← hpost]
    conv_lhs => rw [← List.take_append_drop i t.enumerate]
    congr 1
    rw [List.drop_eq_getElem_cons hi]
    simp
  have hmem : t.enumerate.get ⟨j, hj⟩ ∈ t.enumerate.take i :=
    postList_desc_before t.branches _ _ _ hsplit _ hdesc
  rcases List.mem_take_iff_getElem.mp hmem with ⟨k, hk, hkeq⟩
  have hkl : k < t.enumerate.length := by omega
  have hki : k < i := by omega
  have hgk : t.enumerate.get ⟨k, hkl⟩ = t.enumerate.get ⟨j, hj⟩ := by
    simpa using hkeq
  have hinj := List.nodup_iff_injective_getElem.mp hids
  have hfin : (⟨k, by simpa using hkl⟩ : Fin (t.enumerate.map Tree.id).length)
      = ⟨j, by simpa using hj⟩ := by
    apply hinj
    simp only [List.getElem_map]
    simp only [List.get_eq_getElem] at hgk
    rw [hgk]
  have : k = j := by
    simpa using congrArg Fin.val hfin
  omega

/-- Witness for the safe-teardown theorem on the spec's example tree:
position 0 holds `A1`, position 1 holds `A`, and `A` is not a proper
ancestor of ... (it is the other way round). -/
theorem enumerate_safe_teardown_witness :
    exRoot.NodupIds ∧ (0 : Nat) < 1 ∧
      ¬ Tree.ProperDesc (exRoot.enumerate.get ⟨1, by decide⟩)
        (exRoot.enumerate.get ⟨0, by decide⟩) :=
  ⟨by decide, by decide,
    enumerate_safe_teardown exRoot (by decide) 0 1 (by decide) (by decide) (by decide)⟩

/-! ## Theorems about the heap-model mutators -/

/-- C5: `addBranch` on a non-null child sets the child's trunk to
the inserting node, appends the child at the end of `_branches`
(leaving the previously present children in place and in order), and
returns the child; on a null child it signals the allocation error and
leaves the heap — in particular the parent's children, attributes and
tags — completely unmodified. -/
theorem addBranch_spec (s : Store) (p c : Nat) :
    ((addBranch s p (some c)).1 c).trunk = some p ∧
    ((addBranch s p (some c)).1 p).branches = (s p).branches ++ [c] ∧
    (addBranch s p (some c)).2 = Except.ok c ∧
    (addBranch s p none).1 = s ∧
    (addBranch s p none).2 = Except.error "Failed to allocate memory for parse tree." := by
  refine ⟨?_, ?_, rfl, rfl, rfl⟩
  · by_cases hcp : c = p
    · subst hcp
      simp [addBranch, Store.write]
    · simp [addBranch, Store.write, hcp]
  · by_cases hpc : p = c
    · subst hpc
      simp [addBranch, Store.write]
    · simp [addBranch, Store.write, hpc]

/-- A concrete heap for witnesses: node 0 (named "root") has children
`[1, 2]`; nodes 1 and 2 are leaves whose trunk is 0. -/
def wStore : Store := fun a =>
  if a = 0 then { trunk := none, name := "root", branches := [1, 2], attributes := [], tags := [] }
  else if a = 1 then { trunk := some 0, name := "A", branches := [], attributes := [], tags := [] }
  else if a = 2 then { trunk := some 0, name := "B", branches := [], attributes := [], tags := [] }
  else TNode.mkTree ""

/-- C6: `replaceBranch` with `oldChild` first found at index `i`
sets `newChild`'s trunk to the parent and overwrites exactly slot `i`
with `newChild`, touching no other heap node (in particular not
destroying `oldChild`) and keeping every other child at its original
index; when `oldChild` is not a child (by identity), the call is a
complete no-op. -/
theorem replaceBranch_spec (s : Store) (p old new : Nat) :
    (∀ i, firstIdx (s p).branches old = some i →
      ((replaceBranch s p old new) new).trunk = some p ∧
      ((replaceBranch s p old new) p).branches = (s p).branches.set i new ∧
      (∀ k, k ≠ i → ((replaceBranch s p old new) p).branches.get? k
          = (s p).branches.get? k) ∧
      (∀ q, q ≠ p → q ≠ new → replaceBranch s p old new q = s q)) ∧
    (firstIdx (s p).branches old = none → replaceBranch s p old new = s) := by
  constructor
  · intro i hfound
    refine ⟨?_, ?_, ?_, ?_⟩
    · by_cases hnp : new = p
      · subst hnp
        simp [replaceBranch, hfound, Store.write]
      · simp [replaceBranch, hfound, Store.write, hnp]
    · by_cases hpn : p = new
      · subst hpn
        simp [replaceBranch, hfound, Store.write]
      · simp [replaceBranch, hfound, Store.write, hpn]
    · intro k hk
      have hik : i ≠ k := fun hh => hk hh.symm
      by_cases hpn : p = new
      · subst hpn
        simp [replaceBranch, hfound, Store.write]
        rw [List.getElem?_set_ne hik]
      · simp [replaceBranch, hfound, Store.write, hpn]
        rw [List.getElem?_set_ne hik]
    · intro q hqp hqn
      simp [replaceBranch, hfound, Store.write, hqp, hqn]
  · intro hnone
    simp [replaceBranch, hnone]

/-- Witness for the `replaceBranch` theorem: in `wStore`, replacing
child 1 of node 0 by the fresh node 5. -/
theorem replaceBranch_spec_witness :
    ((replaceBranch wStore 0 1 5) 5).trunk = some 0 ∧
      ((replaceBranch wStore 0 1 5) 0).branches = (wStore 0).branches.set 0 5 ∧
      (∀ k, k ≠ 0 → ((replaceBranch wStore 0 1 5) 0).branches.get? k
          = (wStore 0).branches.get? k) ∧
      (∀ q, q ≠ 0 → q ≠ 5 → replaceBranch wStore 0 1 5 q = wStore q) :=
  (replaceBranch_spec wStore 0 1 5).1 0 (by decide)

/-! ### `removeBranch` helpers -/

/-- Erasing an element absent from the vector is a no-op. -/
theorem removeFirst_not_mem (l : List Nat) (c : Nat) (h : c ∉ l) :
    removeFirst l c = l := by
  induction l with
  | nil => rfl
  | cons x xs ih =>
    have hx : x ≠ c := fun hh => h (hh ▸ List.mem_cons_self x xs)
    rw [removeFirst, if_neg hx, ih (fun hm => h (List.mem_cons_of_mem x hm))]

/-- Erasing removes exactly the first occurrence. -/
theorem removeFirst_append_first (l₁ l₂ : List Nat) (c : Nat) (h : c ∉ l₁) :
    removeFirst (l₁ ++ c :: l₂) c = l₁ ++ l₂ := by
  induction l₁ with
  | nil => simp [removeFirst]
  | cons x xs ih =>
    have hx : x ≠ c := fun hh => h (hh ▸ List.mem_cons_self x xs)
    rw [List.cons_append, removeFirst, if_neg hx,
      ih (fun hm => h (List.mem_cons_of_mem x hm)), List.cons_append]

/-- After erasing from a duplicate-free vector the element is gone. -/
theorem not_mem_removeFirst (l : List Nat) (c : Nat) (h : l.Nodup) :
    c ∉ removeFirst l c := by
  induction l with
  | nil => simp [removeFirst]
  | cons x xs ih =>
    rw [removeFirst]
    by_cases hx : x = c
    · subst hx
      rw [if_pos rfl]
      exact (List.nodup_cons.mp h).1
    · rw [if_neg hx]
      intro hmem
      rcases List.mem_cons.mp hmem with h1 | h2
      · exact hx h1.symm
      · exact ih (List.nodup_cons.mp h).2 h2

/-- Helper: `removeBranch` of a non-member is a complete no-op on the heap. -/
theorem removeBranch_noop (s : Store) (p c : Nat) (h : c ∉ (s p).branches) :
    removeBranch s p c = s := by
  funext x
  rw [removeBranch, Store.write]
  by_cases hx : x = p
  · subst hx
    rw [if_pos rfl, removeFirst_not_mem _ _ h]
  · rw [if_neg hx]

/-- C7: `removeBranch` matches by identity: if `c` occurs among
`p`'s children it removes exactly the first such entry, touching no
other heap node (so `c` itself is not destroyed); if `c` is not a
member — e.g. it was already removed — the call is a complete no-op,
making removal idempotent. -/
theorem removeBranch_spec (s : Store) (p c : Nat) :
    (∀ l₁ l₂, (s p).branches = l₁ ++ c :: l₂ → c ∉ l₁ →
      ((removeBranch s p c) p).branches = l₁ ++ l₂) ∧
    (∀ q, q ≠ p → removeBranch s p c q = s q) ∧
    (c ∉ (s p).branches → removeBranch s p c = s) ∧
    ((s p).branches.Nodup → removeBranch (removeBranch s p c) p c = removeBranch s p c) := by
    refine ⟨?_, ?_, removeBranch_noop s p c, ?_⟩
    · intro l₁ l₂ hdecomp hnot
      simp [removeBranch, Store.write]
      rw [hdecomp, removeFirst_append_first _ _ _ hnot]
    · intro q hq
      simp [removeBranch, Store.write, hq]
    · intro hnodup
      apply removeBranch_noop
      have : ((removeBranch s p c) p).branches = removeFirst (s p).branches c := by
        simp [removeBranch, Store.write]
      rw [this]
      exact not_mem_removeFirst _ _ hnodup

/-- Witness for the `removeBranch` theorem: removing child 1 of node 0
in `wStore` leaves children `[2]`, and removing it again changes
nothing. -/
theorem removeBranch_spec_witness :
    ((removeBranch wStore 0 1) 0).branches = [] ++ [2] ∧
      removeBranch (removeBranch wStore 0 1) 0 1 = removeBranch wStore 0 1 :=
  ⟨(removeBranch_spec wStore 0 1).1 [] [2] (by decide) (by decide),
    (removeBranch_spec wStore 0 1).2.2.2 (by decide)⟩

/-- C10: `removeBranch` never touches the removed child's trunk:
a child of `p` (whose trunk is therefore `p`) still has trunk `p`
after being detached. -/
theorem removeBranch_keeps_trunk (s : Store) (p c : Nat)
    (hmem : c ∈ (s p).branches) (htr : (s c).trunk = some p) :
    ((removeBranch s p c) c).trunk = some p := by
  by_cases hcp : c = p
  · subst hcp
    simpa [removeBranch, Store.write] using htr
  · simpa [removeBranch, Store.write, hcp] using htr

/-- Witness: detaching node 1 from node 0 in `wStore` leaves node 1's
trunk pointing at 0. -/
theorem removeBranch_keeps_trunk_witness :
    ((removeBranch wStore 0 1) 1).trunk = some 0 :=
  removeBranch_keeps_trunk wStore 0 1 (by decide) (by decide)

/-! ## Theorems about attributes and tags -/

/-- C8: the attribute getter returns the stored string when the
name is present and `""` otherwise, and it never mutates the node — in
particular a failed lookup does not create an entry for the name
(no autovivification). -/
theorem attributeGet_no_autovivification (nd : TNode) (x : String) :
    (nd.attributeGet x).1 = nd ∧
    (∀ v, TNode.lookupAttr nd.attributes x = some v → (nd.attributeGet x).2 = v) ∧
    (TNode.lookupAttr nd.attributes x = none →
      (nd.attributeGet x).2 = "" ∧
      TNode.lookupAttr (nd.attributeGet x).1.attributes x = none) := by
  cases h : TNode.lookupAttr nd.attributes x with
  | none =>
    refine ⟨by simp [TNode.attributeGet, h], ?_, ?_⟩
    · intro v hv
      cases hv
    · intro _
      exact ⟨by simp [TNode.attributeGet, h], by simp [TNode.attributeGet, h]⟩
  | some v0 =>
    refine ⟨by simp [TNode.attributeGet, h], ?_, ?_⟩
    · intro v hv
      cases hv
      simp [TNode.attributeGet, h]
    · intro hnone
      cases hnone

/-- Witness: on a fresh node, getting "x" yields `""` and creates no
entry. -/
theorem attributeGet_no_autovivification_witness :
    ((TNode.mkTree "n").attributeGet "x").2 = "" ∧
      TNode.lookupAttr ((TNode.mkTree "n").attributeGet "x").1.attributes "x" = none :=
  (attributeGet_no_autovivification (TNode.mkTree "n") "x").2.2 (by decide)

/-- C9: `tag` is idempotent: adding a tag that is already present
leaves the node unchanged, a second addition of the same tag is always
a no-op, the tag is present afterwards, and — starting from a tag
vector that is a set — after `tag; tag` the node carries exactly one
occurrence of the tag. -/
theorem tag_idempotent (nd : TNode) (s : String) :
    (nd.hasTag s = true → nd.addTag s = nd) ∧
    (nd.addTag s).addTag s = nd.addTag s ∧
    ((nd.addTag s).addTag s).hasTag s = true ∧
    (nd.tags.count s ≤ 1 → ((nd.addTag s).addTag s).tags.count s = 1) := by
  have hafter : (nd.addTag s).hasTag s = true := by
    by_cases h : nd.hasTag s
    · rw [TNode.addTag, if_pos h]
      exact h
    · rw [TNode.addTag, if_neg h]
      simp [TNode.hasTag]
  have hidem : (nd.addTag s).addTag s = nd.addTag s := by
    conv_lhs => rw [TNode.addTag]
    rw [if_pos hafter]
  refine ⟨fun h => by simp [TNode.addTag, h], hidem, by rw [hidem]; exact hafter, ?_⟩
  intro hcount
  rw [hidem]
  by_cases h : nd.hasTag s
  · have hmem : s ∈ nd.tags := by
      simpa [TNode.hasTag] using h
    have h1 : 1 ≤ nd.tags.count s := List.one_le_count_iff.mpr hmem
    simp [TNode.addTag, h]
    omega
  · have hmem : s ∉ nd.tags := by
      simpa [TNode.hasTag] using h
    simp [TNode.addTag, h, List.count_append, List.count_eq_zero.mpr hmem]

/-- Witness: tagging "a" twice on a fresh node yields tag count 1. -/
theorem tag_idempotent_witness :
    (((TNode.mkTree "n").addTag "a").addTag "a").tags.count "a" = 1 :=
  (tag_idempotent (TNode.mkTree "n") "a").2.2.2 (by decide)

end Taskwarrior
